import Mathlib

/-!
Verification development for the OT2-ADT repository
(`src/OT2_DOE/Prepare/OT2_Hcell_commands.py`).

The Python module is shallowly embedded below: pure helper functions become
Lean functions over `List String` / `ℚ`, fallible functions (ones that can
raise) return `Option`, and the stateful main protocol loop becomes an
explicit state-transition function together with an event trace.
-/

namespace OT2

/-- Python's `needle in haystack` substring test, on the character data of
the strings. -/
def substr (needle hay : String) : Prop := needle.data <:+: hay.data

instance (n h : String) : Decidable (substr n h) := by
  unfold substr
  infer_instance

/-- The fixed template `order = ['A1', 'B1', 'A2', 'B2']` used by
`rearrange_hcell_wells`. -/
def hcellOrder : List String := ["A1", "B1", "A2", "B2"]

/-- The body of `rearrange_hcell_wells`' loop for one plate of four wells:
`for well in order: for chamber in block: if well in str(chamber): append`. -/
def processBlock (block : List String) : List String :=
  hcellOrder.flatMap fun well =>
    block.filter fun chamber => decide (substr well chamber)

/-- Embedding of `rearrange_hcell_wells` (lines 68-108): iterate over the
plates (blocks of four wells, `h_cell_wells[i*4:(i+1)*4]`) and within each
plate collect the chambers matching each template label in template order. -/
def rearrange_hcell_wells (h_cell_wells : List String) : List String :=
  (List.range (h_cell_wells.length / 4)).flatMap fun i =>
    processBlock ((h_cell_wells.drop (i * 4)).take 4)

/-- The row letters `row_letter = list(string.ascii_uppercase[:8])`. -/
def rowLetters : List String := ["A", "B", "C", "D", "E", "F", "G", "H"]

/-- Python's `str(row).split(' ')[0]`: the part of the name before the
first space. -/
def firstToken (row : String) : String := (row.splitOn " ").headD ""

/-- The membership test `letter in str(row).split(' ')[0]` used by
`get_Hcell_sample_wells`. -/
def rowHasLetter (letter row : String) : Prop := substr letter (firstToken row)

instance (l r : String) : Decidable (rowHasLetter l r) := by
  unfold rowHasLetter
  infer_instance

/-- Embedding of `get_Hcell_sample_wells` (lines 111-169): group the sample
wells by row letter, either over the whole list (when `number_of_hcells == 4`)
or plate-by-plate (slices of 96 wells) otherwise. -/
def get_Hcell_sample_wells (wellplates : List String) (number_of_hcells : ℕ) :
    List (List String) :=
  let n_plates := wellplates.length / 96
  if number_of_hcells = 4 then
    rowLetters.map fun letter =>
      wellplates.filter fun row => decide (rowHasLetter letter row)
  else
    (List.range n_plates).flatMap fun i =>
      rowLetters.map fun letter =>
        ((wellplates.drop (i * 96)).take 96).filter fun row =>
          decide (rowHasLetter letter row)

/-- Embedding of `get_Hcell_labware` (lines 10-65): split the destination
wells on the `'hcell' in str(row)` test, rearrange the H-cell wells
column-wise, and group the remaining wells into sample-plate rows. -/
def get_Hcell_labware (dest_lab : List String) :
    List String × List (List String) :=
  let h_cell_wells := dest_lab.filter fun row => decide (substr "hcell" row)
  let wellplates := dest_lab.filter fun row => !decide (substr "hcell" row)
  let h2 := rearrange_hcell_wells h_cell_wells
  let number_of_hcells := h2.length / 2
  (h2, get_Hcell_sample_wells wellplates number_of_hcells)

/-- The inner loop of `get_time_schedule` for one phase:
`for n in range(1, instances+1): hr = hr + f; schedule.append(hr)`.
Returns the appended timepoints together with the final value of `hr`. -/
def phase_loop (f : ℚ) : ℕ → ℚ → List ℚ × ℚ
  | 0, hr => ([], hr)
  | k + 1, hr =>
    let hr' := hr + f
    let r := phase_loop f k hr'
    (hr' :: r.1, r.2)

/-- The outer loop of `get_time_schedule` over the `(time, frequency)` phase
pairs: `instances = time // frequency` (floor division), then the inner loop;
returns the timepoints appended to `schedule` and the values appended to
`delays`. -/
def schedule_loop : List (ℚ × ℚ) → ℚ → List ℚ × List ℚ
  | [], _ => ([], [])
  | (t, f) :: rest, hr =>
    let instances := (Int.floor (t / f)).toNat
    let ph := phase_loop f instances hr
    let r := schedule_loop rest ph.2
    (ph.1 ++ r.1, List.replicate instances f ++ r.2)

/-- Embedding of `get_time_schedule` (lines 173-212).  The two `assert`
statements become the guard: `none` models an `AssertionError`.  On success
the schedule and delay lists both start with the prepended `0`. -/
def get_time_schedule (total_time : ℚ) (interval_time interval_frequency : List ℚ) :
    Option (List ℚ × List ℚ) :=
  if interval_time.sum = total_time ∧
      interval_time.length = interval_frequency.length then
    let r := schedule_loop (interval_time.zip interval_frequency) 0
    some (0 :: r.1, 0 :: r.2)
  else
    none

/-- The generated chamber names `['H1_1', 'H1_2', 'H2_1', ...]` of
`get_hcell_name` for `n` H-cells. -/
def hcellNames (n : ℕ) : List String :=
  (List.range n).flatMap fun i =>
    ["H" ++ toString (i + 1) ++ "_1", "H" ++ toString (i + 1) ++ "_2"]

/-- Embedding of `get_hcell_name` (lines 215-242).  The name list has length
`2 * (len(wells) // 2)`; the second loop indexes it at every position of
`h_cell_wells`, so it raises `IndexError` (modelled as `none`) exactly when
the wells outnumber the names.  The Python dict, whose keys are inserted in
list order, is modelled as the association list pairing each name with the
well at the same index. -/
def get_hcell_name (h_cell_wells : List String) :
    Option (List String × List (String × String)) :=
  let n_hcell := h_cell_wells.length / 2
  let h_cell_name := hcellNames n_hcell
  if h_cell_wells.length ≤ h_cell_name.length then
    some (h_cell_name, h_cell_name.zip h_cell_wells)
  else
    none

/-! ### Embedding of the `H_cell_protocol` main loop (lines 281-516)

The hardware calls are opaque; what the claims are about is (a) the order of
the liquid-transfer commands issued inside one iteration, (b) the evolution
of the stock-well index `ww` and the cumulative counter `water_vol`, and
(c) the wait time passed to `protocol.delay`.  These are modelled as an
event trace, a state-transition function, and a wait-time function. -/

/-- Python truthiness of an optional float argument
(`None` and `0` are falsy). -/
def truthyQ (o : Option ℚ) : Prop := o.getD 0 ≠ 0

/-- Python truthiness of an optional integer argument
(`None` and `0` are falsy). -/
def truthyN (o : Option ℕ) : Prop := o.getD 0 ≠ 0

/-- The parameters of `H_cell_protocol` relevant to the modelled behaviour.
`chambers` is `h_cell_col` (the schedule columns starting with `'H'`, in
column order) and `n_names` is `len(h_cell_names)`. -/
structure HParams where
  chambers : List String
  n_names : ℕ
  aliquot_volume : ℚ
  sample_dilution_volume : ℚ
  max_stock_vol : ℚ
  dye_volume : Option ℚ
  dye_well_num : Option ℕ

/-- The mutable loop state: stock-well index `ww` and cumulative volume
counter `water_vol`. -/
structure PState where
  ww : ℕ
  water_vol : ℚ
deriving DecidableEq

/-- One liquid-transfer command of an iteration. -/
inductive Event where
  | dilution : Event
  | dye : String → Event
  | aliquot : String → Event
  | replenish : Event
deriving DecidableEq

/-- Whether `e` is a dye transfer. -/
def Event.isDye : Event → Bool
  | .dye _ => true
  | _ => false

/-- The guard `i == 0 and dye_volume and dye_well_num` (line 419). -/
def dyeActive (p : HParams) (i : ℕ) : Prop :=
  i = 0 ∧ truthyQ p.dye_volume ∧ truthyN p.dye_well_num

instance (p : HParams) (i : ℕ) : Decidable (dyeActive p i) := by
  unfold dyeActive truthyQ truthyN
  infer_instance

/-- The transfers issued in the inner `for m, n in enumerate(h_cell_col)`
loop for one chamber `n`: an optional dye transfer (iteration 0 only, donor
chambers `_1` only), then the aliquot transfer. -/
def chamber_events (p : HParams) (i : ℕ) (n : String) : List Event :=
  (if dyeActive p i ∧ n.endsWith "_1" then [Event.dye n] else []) ++
    [Event.aliquot n]

/-- The transfers issued in one iteration of the main loop, in program
order: the dilution-water distribution (line 401), the per-chamber loop
(lines 416-465), then the replenishment transfer (line 473). -/
def iteration_events (p : HParams) (i : ℕ) : List Event :=
  [Event.dilution] ++ p.chambers.flatMap (chamber_events p i) ++ [Event.replenish]

/-- The value of `water_vol` at the stock-switch check (line 486): the
incoming value plus `aliquot_volume` once per chamber of the inner loop
(line 465) plus `(sample_dilution_volume + aliquot_volume) * len(h_cell_names)`
(line 483). -/
def iteration_counter (p : HParams) (s : PState) : ℚ :=
  (p.chambers.foldl (fun v _ => v + p.aliquot_volume) s.water_vol) +
    (p.sample_dilution_volume + p.aliquot_volume) * (p.n_names : ℚ)

/-- The state update at the end of one iteration (lines 486-490):
`if water_vol >= max_stock_vol: ww += 1; water_vol = 0`. -/
def iteration_state (p : HParams) (s : PState) : PState :=
  if p.max_stock_vol ≤ iteration_counter p s then
    ⟨s.ww + 1, 0⟩
  else
    ⟨s.ww, iteration_counter p s⟩

/-- The loop state before iteration `i`, starting from
`water_vol = 0; ww = 0` (lines 359-360). -/
def protocol_run (p : HParams) : ℕ → PState
  | 0 => ⟨0, 0⟩
  | i + 1 => iteration_state p (protocol_run p i)

/-- Python's `round`: round half to even, as used on `round(e-s)`
(line 481). -/
def pyRound (q : ℚ) : ℤ :=
  let fl := Int.floor q
  let fr := q - fl
  if fr < 1 / 2 then fl
  else if 1 / 2 < fr then fl + 1
  else if Even fl then fl else fl + 1

/-- The assignment `elapsed_time = round(e-s)/60` (line 481), where `dur i` is the measured
wall-clock duration in seconds of the transfer phase of iteration `i`. -/
def elapsed_after (dur : ℕ → ℚ) (i : ℕ) : ℚ := (pyRound (dur i) : ℚ) / 60

/-- The value of the `elapsed_time` variable at the start of iteration `i`:
`False` (modelled as `none`) before iteration 0, and the previous
iteration's rounded duration afterwards. -/
def elapsed_state (dur : ℕ → ℚ) : ℕ → Option ℚ
  | 0 => none
  | i + 1 => some (elapsed_after dur i)

/-- The wait (in minutes) passed to `protocol.delay` at iteration `i`
(lines 389-394), where `delayMin i` is row `i`'s `Delay_min`.  Note that
Python's `elapsed_time != False` comparison is false when `elapsed_time`
is the number `0`, so a zero elapsed time takes the uncorrected branch. -/
def iteration_wait (delayMin dur : ℕ → ℚ) (i : ℕ) : ℚ :=
  match elapsed_state dur i with
  | none => delayMin i
  | some x => if x = 0 then delayMin i else delayMin i - x

/-! ### Lemmas about the schedule generator -/

/-- The adjacent-difference list of `s` relative to a previous point
`prev`: entry `j` is `s[j] - s[j-1]` (with `s[-1] = prev`). -/
def subForm (s : List ℚ) (prev : ℚ) : List ℚ :=
  List.zipWith (fun a b => a - b) s (prev :: s)

lemma subForm_cons (x prev : ℚ) (rest : List ℚ) :
    subForm (x :: rest) prev = (x - prev) :: subForm rest x := rfl

lemma subForm_length (s : List ℚ) (prev : ℚ) :
    (subForm s prev).length = s.length := by
  simp only [subForm, List.length_zipWith, List.length_cons]
  omega

lemma subForm_getD (s : List ℚ) :
    ∀ (prev : ℚ) (j : ℕ), j < s.length →
      (subForm s prev).getD j 0 = s.getD j 0 - (prev :: s).getD j 0 := by
  induction s with
  | nil => intro prev j hj; simp at hj
  | cons x rest ih =>
    intro prev j hj
    rw [subForm_cons]
    cases j with
    | zero => rfl
    | succ j =>
      simp only [List.getD_cons_succ]
      exact ih x j (by simpa using hj)

lemma phase_loop_one (f hr : ℚ) : phase_loop f 1 hr = ([hr + f], hr + f) := rfl

lemma phase_loop_snd (f : ℚ) :
    ∀ (k : ℕ) (hr : ℚ), (phase_loop f k hr).2 = hr + k * f := by
  intro k
  induction k with
  | zero => intro hr; simp [phase_loop]
  | succ k ih =>
    intro hr
    show (phase_loop f k (hr + f)).2 = _
    rw [ih]
    push_cast
    ring

lemma phase_loop_chain (f : ℚ) (hf : 0 < f) :
    ∀ (k : ℕ) (hr : ℚ) (s : List ℚ),
      List.Chain (· < ·) (phase_loop f k hr).2 s →
      List.Chain (· < ·) hr ((phase_loop f k hr).1 ++ s) := by
  intro k
  induction k with
  | zero => intro hr s h; exact h
  | succ k ih =>
    intro hr s h
    exact List.Chain.cons (by linarith) (ih (hr + f) s h)

lemma phase_loop_diff (f : ℚ) :
    ∀ (k : ℕ) (hr : ℚ) (s d : List ℚ),
      d = subForm s (phase_loop f k hr).2 →
      List.replicate k f ++ d = subForm ((phase_loop f k hr).1 ++ s) hr := by
  intro k
  induction k with
  | zero => intro hr s d h; simpa using h
  | succ k ih =>
    intro hr s d h
    show List.replicate (k + 1) f ++ d =
      subForm ((hr + f) :: ((phase_loop f k (hr + f)).1 ++ s)) hr
    rw [subForm_cons, ← ih (hr + f) s d h,
      show hr + f - hr = f from by ring, List.replicate_succ]
    rfl

lemma phase_loop_mem_le (f : ℚ) (hf : 0 ≤ f) :
    ∀ (k : ℕ) (hr x : ℚ), x ∈ (phase_loop f k hr).1 → x ≤ hr + k * f := by
  intro k
  induction k with
  | zero => intro hr x hx; simp [phase_loop] at hx
  | succ k ih =>
    intro hr x hx
    rcases List.mem_cons.mp hx with rfl | hx
    · have : (0 : ℚ) ≤ (k : ℚ) * f :=
        mul_nonneg (by positivity) hf
      push_cast
      linarith
    · have := ih (hr + f) x hx
      push_cast
      linarith [this]

lemma schedule_loop_chain :
    ∀ (pairs : List (ℚ × ℚ)), (∀ p ∈ pairs, 0 < p.2) →
      ∀ hr : ℚ, List.Chain (· < ·) hr (schedule_loop pairs hr).1 := by
  intro pairs
  induction pairs with
  | nil => intro _ hr; exact List.Chain.nil
  | cons p rest ih =>
    intro hpos hr
    obtain ⟨t, f⟩ := p
    have hf : 0 < f := hpos (t, f) (List.mem_cons_self _ _)
    exact phase_loop_chain f hf _ hr _
      (ih (fun q hq => hpos q (List.mem_cons_of_mem _ hq)) _)

lemma schedule_loop_diff :
    ∀ (pairs : List (ℚ × ℚ)) (hr : ℚ),
      (schedule_loop pairs hr).2 = subForm (schedule_loop pairs hr).1 hr := by
  intro pairs
  induction pairs with
  | nil => intro hr; rfl
  | cons p rest ih =>
    intro hr
    obtain ⟨t, f⟩ := p
    exact phase_loop_diff f _ hr _ _ (ih _)

lemma schedule_loop_mem_le :
    ∀ (pairs : List (ℚ × ℚ)), (∀ p ∈ pairs, 0 ≤ p.1) → (∀ p ∈ pairs, 0 < p.2) →
      ∀ (hr x : ℚ), x ∈ (schedule_loop pairs hr).1 →
        x ≤ hr + (pairs.map Prod.fst).sum := by
  intro pairs
  induction pairs with
  | nil => intro _ _ hr x hx; simp [schedule_loop] at hx
  | cons p rest ih =>
    intro hnn hpos hr x hx
    obtain ⟨t, f⟩ := p
    have ht : 0 ≤ t := hnn (t, f) (List.mem_cons_self _ _)
    have hf : 0 < f := hpos (t, f) (List.mem_cons_self _ _)
    have hrest_nn : 0 ≤ (rest.map Prod.fst).sum :=
      List.sum_nonneg fun a ha => by
        obtain ⟨q, hq, rfl⟩ := List.mem_map.mp ha
        exact hnn q (List.mem_cons_of_mem _ hq)
    set k : ℕ := (Int.floor (t / f)).toNat with hk
    have hkf : (k : ℚ) * f ≤ t := by
      have h0 : (0 : ℤ) ≤ Int.floor (t / f) :=
        Int.floor_nonneg.mpr (div_nonneg ht hf.le)
      have hcast : (k : ℚ) = ((Int.floor (t / f) : ℤ) : ℚ) := by
        rw [hk]
        exact_mod_cast congrArg (fun z : ℤ => (z : ℚ)) (Int.toNat_of_nonneg h0)
      have hfl : ((Int.floor (t / f) : ℤ) : ℚ) ≤ t / f := Int.floor_le _
      calc (k : ℚ) * f ≤ (t / f) * f := by
            rw [hcast]
            exact mul_le_mul_of_nonneg_right hfl hf.le
        _ = t := div_mul_cancel₀ t hf.ne'
    rcases List.mem_append.mp hx with hx | hx
    · have := phase_loop_mem_le f hf.le k hr x hx
      simp only [List.map_cons, List.sum_cons]
      linarith
    · have := ih (fun q hq => hnn q (List.mem_cons_of_mem _ hq))
        (fun q hq => hpos q (List.mem_cons_of_mem _ hq)) _ x hx
      rw [phase_loop_snd] at this
      simp only [List.map_cons, List.sum_cons]
      linarith

/-! ### Claims C1, C2, C8 -/

/-- C1: for every `total_time`, non-empty duration list summing to it, and
equal-length list of strictly positive frequencies, `get_time_schedule`
succeeds and returns a schedule that starts at 0 and is strictly
increasing, with `delays[0] = 0` and `delays[k] = schedule[k] -
schedule[k-1]` for every `k ≥ 1`. -/
theorem C1_get_time_schedule_monotone (total : ℚ) (it ifr : List ℚ)
    (hne : it ≠ []) (hsum : it.sum = total) (hlen : it.length = ifr.length)
    (hpos : ∀ f ∈ ifr, 0 < f) :
    ∃ sched dels,
      get_time_schedule total it ifr = some (sched, dels) ∧
      sched.getD 0 0 = 0 ∧
      dels.getD 0 0 = 0 ∧
      List.Chain' (· < ·) sched ∧
      sched.length = dels.length ∧
      ∀ k, 0 < k → k < sched.length →
        dels.getD k 0 = sched.getD k 0 - sched.getD (k - 1) 0 := by
  refine ⟨0 :: (schedule_loop (it.zip ifr) 0).1,
    0 :: (schedule_loop (it.zip ifr) 0).2, ?_, rfl, rfl, ?_, ?_, ?_⟩
  · unfold get_time_schedule
    rw [if_pos ⟨hsum, hlen⟩]
  · show List.Chain (· < ·) 0 (schedule_loop (it.zip ifr) 0).1
    exact schedule_loop_chain _
      (fun p hp => hpos p.2 (List.of_mem_zip hp).2) 0
  · simp only [List.length_cons, schedule_loop_diff, subForm_length]
  · intro k hk hklen
    obtain ⟨j, rfl⟩ : ∃ j, k = j + 1 := ⟨k - 1, by omega⟩
    have hj : j < (schedule_loop (it.zip ifr) 0).1.length := by
      simpa using hklen
    simp only [List.getD_cons_succ, Nat.add_sub_cancel, schedule_loop_diff]
    rw [subForm_getD _ 0 j hj]

/-- Witness for C1 at `total_time = 2`, `interval_time = [2]`,
`interval_frequency = [1]`. -/
theorem C1_get_time_schedule_monotone_witness :
    (([2] : List ℚ) ≠ [] ∧ (∀ f ∈ ([1] : List ℚ), 0 < f)) ∧
    (∃ sched dels,
      get_time_schedule 2 [2] [1] = some (sched, dels) ∧
      sched.getD 0 0 = 0 ∧
      dels.getD 0 0 = 0 ∧
      List.Chain' (· < ·) sched ∧
      sched.length = dels.length ∧
      ∀ k, 0 < k → k < sched.length →
        dels.getD k 0 = sched.getD k 0 - sched.getD (k - 1) 0) :=
  ⟨⟨by simp, by intro f hf; rw [List.mem_singleton] at hf; rw [hf]; norm_num⟩,
    C1_get_time_schedule_monotone 2 [2] [1] (by simp) (by norm_num) rfl
      (by intro f hf; rw [List.mem_singleton] at hf; rw [hf]; norm_num)⟩

/-- C2: `get_time_schedule` fails its assertions (returns `none`, modelling
an `AssertionError`) exactly when the durations do not sum to `total_time`
or the two lists have different lengths. -/
theorem C2_get_time_schedule_assertions (total : ℚ) (it ifr : List ℚ) :
    get_time_schedule total it ifr = none ↔
      (it.sum ≠ total ∨ it.length ≠ ifr.length) := by
  unfold get_time_schedule
  by_cases h : it.sum = total ∧ it.length = ifr.length
  · rw [if_pos h]
    simp [h.1, h.2]
  · rw [if_neg h]
    simp only [true_iff]
    tauto

/-- C8: under the schedule preconditions (with nonnegative phase durations
and strictly positive frequencies), every timepoint is at most
`total_time`; and at `total_time = 3`, `interval_time = [3]`,
`interval_frequency = [2]` the floor division makes the final timepoint `2`,
strictly below `3`, since `3` is not an integer multiple of `2`. -/
theorem C8_schedule_bounded (total : ℚ) (it ifr : List ℚ)
    (hsum : it.sum = total) (hlen : it.length = ifr.length)
    (hnn : ∀ t ∈ it, 0 ≤ t) (hpos : ∀ f ∈ ifr, 0 < f) :
    (∀ sched dels, get_time_schedule total it ifr = some (sched, dels) →
      ∀ x ∈ sched, x ≤ total) ∧
    (get_time_schedule 3 [3] [2] = some ([0, 2], [0, 2]) ∧
      (2 : ℚ) < 3 ∧ ¬ ∃ m : ℤ, (3 : ℚ) = (m : ℚ) * 2) := by
  refine ⟨?_, ?_, by norm_num, ?_⟩
  · intro sched dels heq x hx
    unfold get_time_schedule at heq
    rw [if_pos ⟨hsum, hlen⟩] at heq
    obtain ⟨rfl, -⟩ : (0 : ℚ) :: (schedule_loop (it.zip ifr) 0).1 = sched ∧
        (0 : ℚ) :: (schedule_loop (it.zip ifr) 0).2 = dels := by
      have := Option.some.inj heq
      exact ⟨congrArg Prod.fst this, congrArg Prod.snd this⟩
    have htot : 0 ≤ total := hsum ▸ List.sum_nonneg hnn
    rcases List.mem_cons.mp hx with rfl | hx
    · exact htot
    · have := schedule_loop_mem_le (it.zip ifr)
        (fun p hp => hnn p.1 (List.of_mem_zip hp).1)
        (fun p hp => hpos p.2 (List.of_mem_zip hp).2) 0 x hx
      rwa [List.map_fst_zip it ifr hlen.le, zero_add, hsum] at this
  · unfold get_time_schedule
    rw [if_pos (by norm_num)]
    show some ((0 : ℚ) :: (schedule_loop [(3, 2)] 0).1,
      (0 : ℚ) :: (schedule_loop [(3, 2)] 0).2) = _
    simp only [schedule_loop]
    rw [show (Int.floor ((3 : ℚ) / 2)).toNat = 1 from by norm_num,
      phase_loop_one]
    norm_num
  · rintro ⟨m, hm⟩
    have : (3 : ℚ) = ((2 * m : ℤ) : ℚ) := by push_cast; linarith
    have h3 : (3 : ℤ) = 2 * m := by exact_mod_cast this
    omega

/-- Witness for C8 at `total_time = 2`, `interval_time = [2]`,
`interval_frequency = [1]`. -/
theorem C8_schedule_bounded_witness :
    ((∀ t ∈ ([2] : List ℚ), 0 ≤ t) ∧ (∀ f ∈ ([1] : List ℚ), 0 < f)) ∧
    ((∀ sched dels, get_time_schedule 2 [2] [1] = some (sched, dels) →
      ∀ x ∈ sched, x ≤ 2) ∧
    (get_time_schedule 3 [3] [2] = some ([0, 2], [0, 2]) ∧
      (2 : ℚ) < 3 ∧ ¬ ∃ m : ℤ, (3 : ℚ) = (m : ℚ) * 2)) :=
  ⟨⟨by intro t ht; rw [List.mem_singleton] at ht; rw [ht]; norm_num,
    by intro f hf; rw [List.mem_singleton] at hf; rw [hf]; norm_num⟩,
    C8_schedule_bounded 2 [2] [1] (by norm_num) rfl
      (by intro t ht; rw [List.mem_singleton] at ht; rw [ht]; norm_num)
      (by intro f hf; rw [List.mem_singleton] at hf; rw [hf]; norm_num)⟩

/-! ### Lemmas about `get_hcell_name` -/

lemma hcellNames_succ (n : ℕ) :
    hcellNames (n + 1) = hcellNames n ++
      ["H" ++ toString (n + 1) ++ "_1", "H" ++ toString (n + 1) ++ "_2"] := by
  unfold hcellNames
  rw [List.range_succ, List.flatMap_append]
  rfl

lemma hcellNames_length (n : ℕ) : (hcellNames n).length = 2 * n := by
  induction n with
  | zero => rfl
  | succ n ih =>
    rw [hcellNames_succ, List.length_append, ih]
    simp
    omega

lemma hcellNames_getD (n : ℕ) :
    ∀ i < n, (hcellNames n).getD (2 * i) "" = "H" ++ toString (i + 1) ++ "_1" ∧
      (hcellNames n).getD (2 * i + 1) "" = "H" ++ toString (i + 1) ++ "_2" := by
  induction n with
  | zero => intro i hi; omega
  | succ n ih =>
    intro i hi
    rcases Nat.lt_succ_iff_lt_or_eq.mp hi with hi | rfl
    · have h1 : 2 * i < (hcellNames n).length := by rw [hcellNames_length]; omega
      have h2 : 2 * i + 1 < (hcellNames n).length := by
        rw [hcellNames_length]; omega
      rw [hcellNames_succ, List.getD_append _ _ _ _ h1, List.getD_append _ _ _ _ h2]
      exact ih i hi
    · have hlen : (hcellNames i).length = 2 * i := hcellNames_length i
      rw [hcellNames_succ, List.getD_append_right _ _ _ _ (by omega),
        List.getD_append_right _ _ _ _ (by omega), hlen]
      constructor
      · rw [show 2 * i - 2 * i = 0 from by omega]
        rfl
      · rw [show 2 * i + 1 - 2 * i = 1 from by omega]
        rfl

lemma zip_getD (l1 l2 : List String) :
    ∀ j, j < l1.length → j < l2.length →
      (l1.zip l2).getD j ("", "") = (l1.getD j "", l2.getD j "") := by
  induction l1 generalizing l2 with
  | nil => intro j hj _; simp at hj
  | cons x rest ih =>
    intro j hj1 hj2
    cases l2 with
    | nil => simp at hj2
    | cons y rest2 =>
      cases j with
      | zero => rfl
      | succ j =>
        simp only [List.zip_cons_cons, List.getD_cons_succ]
        exact ih rest2 j (by simpa using hj1) (by simpa using hj2)

/-- C9: `get_hcell_name` raises `IndexError` (modelled as `none`) exactly on
odd-length input; on an even-length input of `2n` wells it returns the names
`H1_1, H1_2, ..., Hn_1, Hn_2` and the mapping pairing the `i`-th name with
the `i`-th well. -/
theorem C9_get_hcell_name_spec (wells : List String) :
    (get_hcell_name wells = none ↔ wells.length % 2 = 1) ∧
    ∀ n, wells.length = 2 * n →
      ∃ names dict, get_hcell_name wells = some (names, dict) ∧
        names.length = wells.length ∧
        (∀ i < n, names.getD (2 * i) "" = "H" ++ toString (i + 1) ++ "_1" ∧
          names.getD (2 * i + 1) "" = "H" ++ toString (i + 1) ++ "_2") ∧
        dict.length = wells.length ∧
        (∀ j < wells.length,
          dict.getD j ("", "") = (names.getD j "", wells.getD j "")) := by
  constructor
  · unfold get_hcell_name
    by_cases h : wells.length ≤ (hcellNames (wells.length / 2)).length
    · rw [if_pos h]
      rw [hcellNames_length] at h
      constructor
      · intro hc
        exact absurd hc (Option.some_ne_none _)
      · intro hodd
        exact absurd hodd (by omega)
    · rw [if_neg h]
      rw [hcellNames_length] at h
      simp only [true_iff]
      omega
  · intro n hn
    have hdiv : wells.length / 2 = n := by omega
    refine ⟨hcellNames n, (hcellNames n).zip wells, ?_, ?_, ?_, ?_, ?_⟩
    · unfold get_hcell_name
      rw [hdiv, if_pos (by rw [hcellNames_length]; omega)]
    · rw [hcellNames_length, hn]
    · exact hcellNames_getD n
    · rw [List.length_zip, hcellNames_length, hn]
      omega
    · intro j hj
      exact zip_getD _ _ j (by rw [hcellNames_length]; omega) (by omega)

/-- Witness for C9 on the two-element input `["w1", "w2"]`. -/
theorem C9_get_hcell_name_spec_witness :
    ∃ names dict, get_hcell_name ["w1", "w2"] = some (names, dict) ∧
      names.length = 2 ∧
      (∀ i < 1, names.getD (2 * i) "" = "H" ++ toString (i + 1) ++ "_1" ∧
        names.getD (2 * i + 1) "" = "H" ++ toString (i + 1) ++ "_2") ∧
      dict.length = 2 ∧
      (∀ j < 2, dict.getD j ("", "") =
        (names.getD j "", (["w1", "w2"] : List String).getD j "")) :=
  (C9_get_hcell_name_spec ["w1", "w2"]).2 1 rfl

/-! ### Claims C3 and C4: the protocol loop's timing and stock-well state -/

/-- C3: the wait passed to `protocol.delay` is the scheduled `Delay_min`
at iteration 0 and `Delay_min` minus the previous iteration's measured
duration, rounded to whole seconds and converted to minutes, at every
iteration `i ≥ 1`; there is no lower clamp, so the computed wait can be
negative (here: nominal delay 1 minute, previous iteration took 120
seconds, giving a wait of `-1`). -/
theorem C3_delay_correction (D dur : ℕ → ℚ) :
    iteration_wait D dur 0 = D 0 ∧
    (∀ i, 0 < i →
      iteration_wait D dur i = D i - (pyRound (dur (i - 1)) : ℚ) / 60) ∧
    iteration_wait (fun _ => 1) (fun _ => 120) 1 < 0 := by
  refine ⟨rfl, ?_, ?_⟩
  · intro i hi
    obtain ⟨j, rfl⟩ : ∃ j, i = j + 1 := ⟨i - 1, by omega⟩
    show (if elapsed_after dur j = 0 then D (j + 1)
      else D (j + 1) - elapsed_after dur j) = _
    simp only [Nat.add_sub_cancel]
    by_cases h : elapsed_after dur j = 0
    · rw [if_pos h]
      unfold elapsed_after at h
      rw [show ((pyRound (dur j) : ℚ) / 60) = 0 from h]
      ring
    · rw [if_neg h]
      rfl
  · show (if elapsed_after (fun _ => 120) 0 = 0 then (1 : ℚ)
      else 1 - elapsed_after (fun _ => 120) 0) < 0
    have h120 : pyRound 120 = 120 := by
      unfold pyRound
      norm_num
    have he : elapsed_after (fun _ => (120 : ℚ)) 0 = 2 := by
      unfold elapsed_after
      rw [h120]
      norm_num
    rw [he]
    norm_num

/-- Witness for C3 at `Delay_min = 5` minutes and a previous iteration of
90 seconds. -/
theorem C3_delay_correction_witness :
    (0 : ℕ) < 1 ∧
    iteration_wait (fun _ => (5 : ℚ)) (fun _ => (90 : ℚ)) 1 =
      5 - (pyRound 90 : ℚ) / 60 :=
  ⟨by norm_num,
    (C3_delay_correction (fun _ => (5 : ℚ)) (fun _ => (90 : ℚ))).2.1 1
      (by norm_num)⟩

/-- Concrete parameters with one schedule column and one chamber name, for
which one iteration adds exactly `20 + (180 + 20) * 1 = 220` to the water
counter, equal to the configured maximum. -/
def exampleParams : HParams :=
  { chambers := ["H1_1"], n_names := 1, aliquot_volume := 20,
    sample_dilution_volume := 180, max_stock_vol := 220,
    dye_volume := none, dye_well_num := none }

lemma exampleParams_counter : iteration_counter exampleParams ⟨0, 0⟩ = 220 := by
  unfold iteration_counter exampleParams
  norm_num

/-- Counterexample to C4 as stated: with `max_stock_vol = 220` and an
iteration that brings the counter to exactly `220`, the code (which tests
`water_vol >= max_stock_vol`) switches the stock well even though the
counter does not strictly exceed the maximum, so "incremented ... exactly
when the counter strictly exceeds `max_stock_vol`" is false. -/
theorem C4_counterexample :
    ¬ (((iteration_state exampleParams ⟨0, 0⟩).ww = 0 + 1 ∧
        (iteration_state exampleParams ⟨0, 0⟩).water_vol = 0) ↔
      exampleParams.max_stock_vol < iteration_counter exampleParams ⟨0, 0⟩) := by
  intro h
  have hs : iteration_state exampleParams ⟨0, 0⟩ = ⟨1, 0⟩ := by
    unfold iteration_state
    rw [exampleParams_counter, if_pos (by norm_num [exampleParams])]
  have hlt : exampleParams.max_stock_vol <
      iteration_counter exampleParams ⟨0, 0⟩ :=
    h.mp (by rw [hs]; exact ⟨rfl, rfl⟩)
  rw [exampleParams_counter] at hlt
  exact absurd hlt (by norm_num [exampleParams])

/-- C4 (amended): the stock-well index starts at 0 and never decreases,
and at the end of each iteration it is incremented by one with the counter
reset to 0 exactly when the counter is greater than **or equal to**
`max_stock_vol` (the code tests `>=`, not `>`); both are unchanged (the
counter keeping its accumulated value) otherwise. -/
theorem C4_stock_switch (p : HParams) :
    (protocol_run p 0).ww = 0 ∧
    (∀ j k, j ≤ k → (protocol_run p j).ww ≤ (protocol_run p k).ww) ∧
    (∀ i,
      (((protocol_run p (i + 1)).ww = (protocol_run p i).ww + 1 ∧
        (protocol_run p (i + 1)).water_vol = 0) ↔
        p.max_stock_vol ≤ iteration_counter p (protocol_run p i)) ∧
      (((protocol_run p (i + 1)).ww = (protocol_run p i).ww ∧
        (protocol_run p (i + 1)).water_vol =
          iteration_counter p (protocol_run p i)) ↔
        ¬ p.max_stock_vol ≤ iteration_counter p (protocol_run p i))) := by
  have hstep : ∀ s : PState,
      (iteration_state p s = ⟨s.ww + 1, 0⟩ ∧
        p.max_stock_vol ≤ iteration_counter p s) ∨
      (iteration_state p s = ⟨s.ww, iteration_counter p s⟩ ∧
        ¬ p.max_stock_vol ≤ iteration_counter p s) := by
    intro s
    unfold iteration_state
    by_cases hc : p.max_stock_vol ≤ iteration_counter p s
    · exact Or.inl ⟨if_pos hc, hc⟩
    · exact Or.inr ⟨if_neg hc, hc⟩
  have hmono1 : ∀ i, (protocol_run p i).ww ≤ (protocol_run p (i + 1)).ww := by
    intro i
    show (protocol_run p i).ww ≤ (iteration_state p (protocol_run p i)).ww
    rcases hstep (protocol_run p i) with ⟨heq, -⟩ | ⟨heq, -⟩
    · rw [heq]
      exact Nat.le_succ _
    · rw [heq]
  refine ⟨rfl, ?_, ?_⟩
  · intro j k hjk
    induction k with
    | zero =>
      have hj0 : j = 0 := Nat.le_zero.mp hjk
      subst hj0
      exact le_rfl
    | succ k ih =>
      rcases Nat.le_succ_iff.mp hjk with h | rfl
      · exact le_trans (ih h) (hmono1 k)
      · exact le_rfl
  · intro i
    rw [show protocol_run p (i + 1) = iteration_state p (protocol_run p i)
      from rfl]
    rcases hstep (protocol_run p i) with ⟨heq, hc⟩ | ⟨heq, hc⟩
    · rw [heq]
      constructor
      · exact ⟨fun _ => hc, fun _ => ⟨rfl, rfl⟩⟩
      · constructor
        · intro ⟨h1, _⟩
          exact absurd h1 (by simp)
        · intro hn
          exact absurd hc hn
    · rw [heq]
      constructor
      · constructor
        · intro ⟨h1, _⟩
          exact absurd h1 (by simp)
        · intro hle
          exact absurd hle hc
      · exact ⟨fun _ => hc, fun _ => ⟨rfl, rfl⟩⟩

/-- Witness for C4 (amended) at the concrete parameters and `j = 0 ≤ k = 2`. -/
theorem C4_stock_switch_witness :
    (0 : ℕ) ≤ 2 ∧
    (protocol_run exampleParams 0).ww ≤ (protocol_run exampleParams 2).ww :=
  ⟨by norm_num, (C4_stock_switch exampleParams).2.1 0 2 (by norm_num)⟩

/-! ### Claims C7 and C10: the transfer order and the dye injection -/

lemma chamber_events_filter (p : HParams) (i : ℕ) :
    ∀ chs : List String,
      (chs.flatMap (chamber_events p i)).filter (fun e => !e.isDye) =
        chs.map Event.aliquot := by
  intro chs
  induction chs with
  | nil => rfl
  | cons n rest ih =>
    rw [List.flatMap_cons, List.filter_append, ih]
    unfold chamber_events
    by_cases h : dyeActive p i ∧ n.endsWith "_1"
    · rw [if_pos h]
      rfl
    · rw [if_neg h]
      rfl

/-- C7: in every iteration the non-dye liquid transfers are issued in the
fixed order: the dilution-water transfer, then one aliquot transfer per
chamber in column order, then the replenishment-water transfer. -/
theorem C7_transfer_order (p : HParams) (i : ℕ) :
    (iteration_events p i).filter (fun e => !e.isDye) =
      Event.dilution :: (p.chambers.map Event.aliquot ++ [Event.replenish]) := by
  unfold iteration_events
  rw [List.filter_append, List.filter_append, chamber_events_filter]
  rfl

/-- C10: a dye transfer into chamber `c` is issued iff the iteration is
iteration 0, both `dye_volume` and `dye_well_num` are truthy (`None` and
`0` disable the injection), `c` is one of the chambers, and `c`'s name ends
with `_1` (a donor chamber); in particular no dye transfer occurs at any
iteration `i ≥ 1`. -/
theorem C10_dye_only_first_iteration (p : HParams) (i : ℕ) (c : String) :
    Event.dye c ∈ iteration_events p i ↔
      (i = 0 ∧ truthyQ p.dye_volume ∧ truthyN p.dye_well_num ∧
        c ∈ p.chambers ∧ c.endsWith "_1" = true) := by
  unfold iteration_events
  constructor
  · intro hmem
    rcases List.mem_append.mp hmem with hmem | hmem
    swap
    · simp at hmem
    rcases List.mem_append.mp hmem with hmem | hmem
    · simp at hmem
    obtain ⟨n, hn, hce⟩ := List.mem_flatMap.mp hmem
    unfold chamber_events at hce
    by_cases h : dyeActive p i ∧ n.endsWith "_1"
    · rw [if_pos h] at hce
      rcases List.mem_append.mp hce with hce | hce
      · have hcn : c = n := Event.dye.inj (List.mem_singleton.mp hce)
        subst hcn
        obtain ⟨⟨hi, h1, h2⟩, hend⟩ := h
        exact ⟨hi, h1, h2, hn, hend⟩
      · simp at hce
    · rw [if_neg h] at hce
      simp at hce
  · rintro ⟨rfl, h1, h2, hc, hend⟩
    apply List.mem_append.mpr
    left
    apply List.mem_append.mpr
    right
    apply List.mem_flatMap.mpr
    refine ⟨c, hc, ?_⟩
    unfold chamber_events
    rw [if_pos ⟨⟨rfl, h1, h2⟩, hend⟩]
    exact List.mem_append.mpr (Or.inl (List.mem_singleton.mpr rfl))

/-! ### Chunk decomposition lemmas

`rearrange_hcell_wells` and the multi-plate branch of
`get_Hcell_sample_wells` both iterate over `range n` processing slices
`l[i*k : (i+1)*k]`; the next two lemmas handle that pattern generically. -/

lemma chunk_shift {α : Type} (l : List α) (k i : ℕ) :
    ((l.drop k).drop (i * k)).take k = (l.drop ((i + 1) * k)).take k := by
  rw [List.drop_drop]
  congr 2
  ring

lemma flatMap_range_chunk_perm {α : Type} (k : ℕ) (g : List α → List α) :
    ∀ (n : ℕ) (l : List α), l.length = k * n →
      (∀ i < n, (g ((l.drop (i * k)).take k)).Perm ((l.drop (i * k)).take k)) →
      ((List.range n).flatMap fun i => g ((l.drop (i * k)).take k)).Perm l := by
  intro n
  induction n with
  | zero =>
    intro l hlen _
    have hnil : l = [] := List.length_eq_zero.mp (by omega)
    subst hnil
    exact List.Perm.refl _
  | succ n ih =>
    intro l hlen hblk
    have hdec : (List.range (n + 1)).flatMap
        (fun i => g ((l.drop (i * k)).take k)) =
        g (l.take k) ++ (List.range n).flatMap
          (fun i => g (((l.drop k).drop (i * k)).take k)) := by
      rw [List.range_succ_eq_map, List.flatMap_cons, List.flatMap_map]
      congr 1
      · rw [Nat.zero_mul, List.drop_zero]
      · congr 1
        funext i
        rw [chunk_shift]
    rw [hdec]
    have h0 : (g (l.take k)).Perm (l.take k) := by
      have := hblk 0 (Nat.succ_pos n)
      rwa [Nat.zero_mul, List.drop_zero] at this
    have hrest : ((List.range n).flatMap
        (fun i => g (((l.drop k).drop (i * k)).take k))).Perm (l.drop k) := by
      refine ih (l.drop k)
        (by rw [List.length_drop, hlen, Nat.mul_succ]; omega) ?_
      intro i hi
      have := hblk (i + 1) (by omega)
      rwa [← chunk_shift] at this
    have := List.Perm.append h0 hrest
    rwa [List.take_append_drop] at this

lemma flatMap_range_blocks {α : Type} (k : ℕ) :
    ∀ (n : ℕ) (g : ℕ → List α), (∀ i < n, (g i).length = k) →
      ∀ i < n, (((List.range n).flatMap g).drop (i * k)).take k = g i := by
  intro n
  induction n with
  | zero => intro g _ i hi; omega
  | succ n ih =>
    intro g hg i hi
    have hdec : (List.range (n + 1)).flatMap g =
        g 0 ++ (List.range n).flatMap (fun j => g (j + 1)) := by
      rw [List.range_succ_eq_map, List.flatMap_cons, List.flatMap_map]
    rw [hdec]
    cases i with
    | zero =>
      rw [Nat.zero_mul, List.drop_zero]
      exact List.take_left' (hg 0 hi)
    | succ i =>
      rw [show (i + 1) * k = k + i * k from by ring, ← List.drop_drop,
        List.drop_left' (hg 0 (Nat.succ_pos n))]
      exact ih (fun j => g (j + 1)) (fun j hj => hg (j + 1) (by omega)) i
        (by omega)

/-! ### The block template hypothesis for `rearrange_hcell_wells` -/

/-- A plate of four H-cell wells matching the `A1/B1/A2/B2` template: the
block consists of four wells whose string representations contain,
respectively, exactly the labels `A1`, `B1`, `A2`, `B2` of the template
(each label contained in exactly one well and no well containing a second
label). -/
def blockTemplate (block : List String) : Prop :=
  ∃ w : Fin 4 → String,
    block.Perm [w 0, w 1, w 2, w 3] ∧
    ∀ j kk : Fin 4, substr (hcellOrder.getD (kk : ℕ) "") (w j) ↔ j = kk

lemma processBlock_spec (block : List String) (hb : blockTemplate block) :
    ∃ w : Fin 4 → String,
      block.Perm [w 0, w 1, w 2, w 3] ∧
      (∀ j kk : Fin 4,
        substr (hcellOrder.getD (kk : ℕ) "") (w j) ↔ j = kk) ∧
      processBlock block = [w 0, w 1, w 2, w 3] := by
  obtain ⟨w, hperm, hiff⟩ := hb
  refine ⟨w, hperm, hiff, ?_⟩
  have hval : ∀ j kk : Fin 4,
      decide (substr (hcellOrder.getD (kk : ℕ) "") (w j)) = decide (j = kk) :=
    fun j kk => decide_eq_decide.mpr (hiff j kk)
  have hfour : ∀ kk : Fin 4,
      List.filter (fun c => decide (substr (hcellOrder.getD (kk : ℕ) "") c))
        [w 0, w 1, w 2, w 3] = [w kk] := by
    intro kk
    simp only [List.filter_cons, List.filter_nil, hval]
    fin_cases kk <;> simp
  have hfb : ∀ kk : Fin 4,
      block.filter (fun c => decide (substr (hcellOrder.getD (kk : ℕ) "") c)) =
        [w kk] := by
    intro kk
    apply List.perm_singleton.mp
    have := hperm.filter
      (fun c => decide (substr (hcellOrder.getD (kk : ℕ) "") c))
    rwa [hfour kk] at this
  show hcellOrder.flatMap
    (fun well => block.filter fun c => decide (substr well c)) = _
  rw [show hcellOrder = ["A1", "B1", "A2", "B2"] from rfl]
  simp only [List.flatMap_cons, List.flatMap_nil, List.append_nil]
  have e0 : block.filter (fun c => decide (substr "A1" c)) = [w 0] := hfb 0
  have e1 : block.filter (fun c => decide (substr "B1" c)) = [w 1] := hfb 1
  have e2 : block.filter (fun c => decide (substr "A2" c)) = [w 2] := hfb 2
  have e3 : block.filter (fun c => decide (substr "B2" c)) = [w 3] := hfb 3
  rw [e0, e1, e2, e3]
  rfl

/-- The full specification of `rearrange_hcell_wells` on well-formed input:
the output is a permutation of the input, blockwise, and each output block
follows the `A1/B1/A2/B2` template positionally. -/
lemma rearrange_blocks_spec (l : List String) (n : ℕ) (hlen : l.length = 4 * n)
    (hblk : ∀ i < n, blockTemplate ((l.drop (i * 4)).take 4)) :
    (rearrange_hcell_wells l).Perm l ∧
    ∀ i < n,
      (((rearrange_hcell_wells l).drop (i * 4)).take 4).Perm
        ((l.drop (i * 4)).take 4) ∧
      ∀ j : Fin 4,
        substr (hcellOrder.getD (j : ℕ) "")
          ((((rearrange_hcell_wells l).drop (i * 4)).take 4).getD (j : ℕ) "") := by
  have hdiv : l.length / 4 = n := by omega
  have hre : rearrange_hcell_wells l =
      (List.range n).flatMap
        (fun i => processBlock ((l.drop (i * 4)).take 4)) := by
    unfold rearrange_hcell_wells
    rw [hdiv]
  constructor
  · rw [hre]
    apply flatMap_range_chunk_perm 4 processBlock n l hlen
    intro i hi
    obtain ⟨w, hp, -, heq⟩ := processBlock_spec _ (hblk i hi)
    rw [heq]
    exact hp.symm
  · intro i hi
    obtain ⟨w, hp, hiff, heq⟩ := processBlock_spec _ (hblk i hi)
    have hout : (((rearrange_hcell_wells l).drop (i * 4)).take 4) =
        processBlock ((l.drop (i * 4)).take 4) := by
      rw [hre]
      refine flatMap_range_blocks 4 n _ ?_ i hi
      intro j hj
      obtain ⟨w', -, -, heq'⟩ := processBlock_spec _ (hblk j hj)
      rw [heq']
      rfl
    rw [hout, heq]
    refine ⟨hp.symm, ?_⟩
    intro j
    fin_cases j
    · exact (hiff 0 0).mpr rfl
    · exact (hiff 1 1).mpr rfl
    · exact (hiff 2 2).mpr rfl
    · exact (hiff 3 3).mpr rfl

/-- C5: for every list of H-cell wells whose length is a multiple of 4 and
whose consecutive blocks of four each match the `A1/B1/A2/B2` labelling
(each template label contained in exactly one well of the block, and no
well carrying a second label), `rearrange_hcell_wells` returns a
permutation of its input in which each block of four is reordered to follow
the template `A1, B1, A2, B2`. -/
theorem C5_rearrange_hcell_wells (l : List String) (n : ℕ)
    (hlen : l.length = 4 * n)
    (hblk : ∀ i < n, blockTemplate ((l.drop (i * 4)).take 4)) :
    (rearrange_hcell_wells l).Perm l ∧
    ∀ i < n,
      (((rearrange_hcell_wells l).drop (i * 4)).take 4).Perm
        ((l.drop (i * 4)).take 4) ∧
      ∀ j : Fin 4,
        substr (hcellOrder.getD (j : ℕ) "")
          ((((rearrange_hcell_wells l).drop (i * 4)).take 4).getD (j : ℕ) "") :=
  rearrange_blocks_spec l n hlen hblk

/-- Witness for C5 on one plate of four wells given in the order
`B1, A1, B2, A2`. -/
theorem C5_rearrange_hcell_wells_witness :
    (∀ i < 1, blockTemplate
      (((["hcellB1", "hcellA1", "hcellB2", "hcellA2"] : List String).drop
        (i * 4)).take 4)) ∧
    ((rearrange_hcell_wells ["hcellB1", "hcellA1", "hcellB2", "hcellA2"]).Perm
        ["hcellB1", "hcellA1", "hcellB2", "hcellA2"] ∧
      ∀ i < 1,
        (((rearrange_hcell_wells
          ["hcellB1", "hcellA1", "hcellB2", "hcellA2"]).drop (i * 4)).take
            4).Perm
          (((["hcellB1", "hcellA1", "hcellB2", "hcellA2"] : List String).drop
            (i * 4)).take 4) ∧
        ∀ j : Fin 4,
          substr (hcellOrder.getD (j : ℕ) "")
            ((((rearrange_hcell_wells
              ["hcellB1", "hcellA1", "hcellB2", "hcellA2"]).drop
                (i * 4)).take 4).getD (j : ℕ) "")) := by
  have hb : ∀ i < 1, blockTemplate
      (((["hcellB1", "hcellA1", "hcellB2", "hcellA2"] : List String).drop
        (i * 4)).take 4) := by
    intro i hi
    have hi0 : i = 0 := by omega
    subst hi0
    exact ⟨fun j => ["hcellA1", "hcellB1", "hcellA2", "hcellB2"].getD (j : ℕ) "",
      by decide, by decide⟩
  exact ⟨hb, C5_rearrange_hcell_wells _ 1 rfl hb⟩

/-! ### Partition lemmas for `get_Hcell_labware` (claim C6) -/

lemma flatten_map_eq_flatMap {α β : Type} (l : List α) (f : α → List β) :
    (l.map f).flatten = l.flatMap f := by
  induction l with
  | nil => rfl
  | cons x rest ih =>
    rw [List.map_cons, List.flatten_cons, List.flatMap_cons, ih]

lemma flatten_flatMap_comm {α β : Type} (l : List α) (f : α → List (List β)) :
    (l.flatMap f).flatten = l.flatMap fun x => (f x).flatten := by
  induction l with
  | nil => rfl
  | cons x rest ih =>
    rw [List.flatMap_cons, List.flatMap_cons, List.flatten_append, ih]

lemma count_flatMap_filter (ps : List (String → Bool)) (l : List String)
    (a : String) :
    ((ps.flatMap fun p => l.filter p).count a) =
      (ps.countP fun p => p a) * l.count a := by
  induction ps with
  | nil => simp
  | cons p ps ih =>
    rw [List.flatMap_cons, List.count_append, ih, List.countP_cons]
    by_cases h : p a = true
    · rw [List.count_filter h, if_pos h]
      ring
    · have h0 : (l.filter p).count a = 0 :=
        List.count_eq_zero.mpr fun hmem => h (List.of_mem_filter hmem)
      rw [h0, if_neg h]
      ring

/-- If every element of `l` satisfies exactly one of the predicates in
`ps`, then concatenating the filtered sublists for each predicate is a
permutation of `l`. -/
lemma flatMap_filter_perm (ps : List (String → Bool)) (l : List String)
    (h : ∀ a ∈ l, (ps.countP fun p => p a) = 1) :
    (ps.flatMap fun p => l.filter p).Perm l := by
  rw [List.perm_iff_count]
  intro a
  rw [count_flatMap_filter]
  by_cases ha : a ∈ l
  · rw [h a ha, one_mul]
  · rw [List.count_eq_zero.mpr ha, Nat.mul_zero]

/-- Flattening the row groups produced by `get_Hcell_sample_wells` yields a
permutation of its input, provided the input length is a multiple of 96 and
each well's first name token contains exactly one row letter `A`-`H`. -/
lemma sample_wells_flatten_perm (w : List String) (nh np : ℕ)
    (hlen : w.length = 96 * np)
    (hrows : ∀ r ∈ w,
      (rowLetters.countP fun letter => decide (rowHasLetter letter r)) = 1) :
    ((get_Hcell_sample_wells w nh).flatten).Perm w := by
  unfold get_Hcell_sample_wells
  by_cases hn : nh = 4
  · rw [if_pos hn, flatten_map_eq_flatMap]
    have := flatMap_filter_perm
      (rowLetters.map fun letter => fun row => decide (rowHasLetter letter row))
      w (fun a ha => by rw [List.countP_map]; exact hrows a ha)
    rwa [List.flatMap_map] at this
  · rw [if_neg hn]
    have hnp : w.length / 96 = np := by omega
    rw [hnp, flatten_flatMap_comm]
    have hinner : ∀ s : List String,
        ((rowLetters.map fun letter =>
          s.filter fun row => decide (rowHasLetter letter row)).flatten) =
          rowLetters.flatMap fun letter =>
            s.filter fun row => decide (rowHasLetter letter row) :=
      fun s => flatten_map_eq_flatMap _ _
    simp only [hinner]
    apply flatMap_range_chunk_perm 96
      (fun s => rowLetters.flatMap fun letter =>
        s.filter fun row => decide (rowHasLetter letter row)) np w hlen
    intro i hi
    have := flatMap_filter_perm
      (rowLetters.map fun letter => fun row => decide (rowHasLetter letter row))
      ((w.drop (i * 96)).take 96)
      (fun a ha => by
        rw [List.countP_map]
        exact hrows a (List.mem_of_mem_drop (List.mem_of_mem_take ha)))
    rwa [List.flatMap_map] at this

/-- C6: on input whose `'hcell'` wells form well-labelled plates of four and
whose remaining sample wells number a multiple of 96 with standard row
letters (each first name token containing exactly one of `A`-`H`),
`get_Hcell_labware` partitions the input: concatenating the returned H-cell
well list with all returned row groups is a permutation of the input, so
every well appears exactly once and none is dropped or duplicated. -/
theorem C6_get_Hcell_labware_partition (dest : List String) (nb np : ℕ)
    (hh : (dest.filter fun r => decide (substr "hcell" r)).length = 4 * nb)
    (hblk : ∀ i < nb, blockTemplate
      (((dest.filter fun r => decide (substr "hcell" r)).drop (i * 4)).take 4))
    (hw : (dest.filter fun r => !decide (substr "hcell" r)).length = 96 * np)
    (hrows : ∀ r ∈ dest.filter fun r => !decide (substr "hcell" r),
      (rowLetters.countP fun letter => decide (rowHasLetter letter r)) = 1) :
    ((get_Hcell_labware dest).1 ++
      (get_Hcell_labware dest).2.flatten).Perm dest := by
  have hhp : (rearrange_hcell_wells
      (dest.filter fun r => decide (substr "hcell" r))).Perm
      (dest.filter fun r => decide (substr "hcell" r)) :=
    (rearrange_blocks_spec _ nb hh hblk).1
  have hwp := sample_wells_flatten_perm
    (dest.filter fun r => !decide (substr "hcell" r))
    ((rearrange_hcell_wells
      (dest.filter fun r => decide (substr "hcell" r))).length / 2)
    np hw hrows
  have hcombined := List.Perm.append hhp hwp
  exact hcombined.trans
    (List.filter_append_perm (fun r => decide (substr "hcell" r)) dest)

/-- Witness for C6 on a destination list of one H-cell plate and no sample
wells. -/
theorem C6_get_Hcell_labware_partition_witness :
    (((["hcellB1", "hcellA1", "hcellB2", "hcellA2"] : List String).filter
      fun r => decide (substr "hcell" r)).length = 4 * 1 ∧
    ((["hcellB1", "hcellA1", "hcellB2", "hcellA2"] : List String).filter
      fun r => !decide (substr "hcell" r)).length = 96 * 0) ∧
    ((get_Hcell_labware ["hcellB1", "hcellA1", "hcellB2", "hcellA2"]).1 ++
      (get_Hcell_labware
        ["hcellB1", "hcellA1", "hcellB2", "hcellA2"]).2.flatten).Perm
      ["hcellB1", "hcellA1", "hcellB2", "hcellA2"] := by
  have hb : ∀ i < 1, blockTemplate
      ((((["hcellB1", "hcellA1", "hcellB2", "hcellA2"] : List String).filter
        fun r => decide (substr "hcell" r)).drop (i * 4)).take 4) := by
    intro i hi
    have hi0 : i = 0 := by omega
    subst hi0
    exact ⟨fun j => ["hcellA1", "hcellB1", "hcellA2", "hcellB2"].getD (j : ℕ) "",
      by decide, by decide⟩
  refine ⟨⟨by decide, by decide⟩, ?_⟩
  exact C6_get_Hcell_labware_partition
    ["hcellB1", "hcellA1", "hcellB2", "hcellA2"] 1 0 (by decide) hb (by decide)
    (by decide)

end OT2
